import Mathlib

/-!
Verification of the aorta shell's command interpretation engine.

This file gives a shallow embedding, in Lean 4, of the pipeline parser
(`src/shell/pipeline.rs`), the expansion logic
(`src/shell/environment.rs`, `src/core/config/aliases.rs`), the pipeline
executor (`Pipeline::execute_with_context`), the builtin `source` and `cd`
commands (`src/core/commands/source.rs`, `src/core/commands/cd.rs`) and the
process spawner (`src/process/executor.rs`), and proves properties of the
embedded definitions.

Strings are modelled by Lean `String` (a wrapper around `List Char`);
the Rust character classes `char::is_whitespace` / `char::is_alphanumeric`
are modelled by `Char.isWhitespace` / `Char.isAlphanum`, which agree on the
ASCII inputs relevant here.  External effects (spawned processes, the file
system, the working directory) are modelled by explicit oracles and effect
traces.
-/

namespace Aorta

/-- Model of Rust `str::trim`: drop whitespace from both ends of a
character list. -/
def trimL (l : List Char) : List Char :=
  ((l.dropWhile Char.isWhitespace).reverse.dropWhile Char.isWhitespace).reverse

/-- Auxiliary accumulator-based splitter for `splitWs`; `acc` holds the
characters of the current token in reverse order. -/
def splitWsAux : List Char → List Char → List (List Char)
  | acc, [] => if acc.isEmpty then [] else [acc.reverse]
  | acc, c :: rest =>
    if c.isWhitespace then
      if acc.isEmpty then splitWsAux [] rest
      else acc.reverse :: splitWsAux [] rest
    else splitWsAux (c :: acc) rest

/-- Model of Rust `str::split_whitespace`: the maximal whitespace-free,
non-empty chunks of a character list, in order. -/
def splitWs (l : List Char) : List (List Char) :=
  splitWsAux [] l

/-- The operator that terminates a pipeline stage
(`PipelineOperator` in `src/shell/pipeline.rs`). -/
inductive PipelineOperator where
  | Pipe
  | And
  | Or
  | Sequence
  | Redirect
  deriving DecidableEq

/-- One parsed pipeline stage (`PipelineStage` in `src/shell/pipeline.rs`). -/
structure PipelineStage where
  command : String
  args : List String
  operator : Option PipelineOperator
  deriving DecidableEq

/-- A parsed pipeline (`Pipeline` in `src/shell/pipeline.rs`).  Parse errors
are represented by `Except.error` carrying the `ParseError` message. -/
structure Pipeline where
  stages : List PipelineStage
  deriving DecidableEq

/-- Embedding of `Pipeline::add_stage` (`src/shell/pipeline.rs`, lines
127-149): trim the accumulated command text, fail on an empty command,
otherwise whitespace-split it into command and arguments and append the new
stage.  (The Rust code also re-checks that the split is non-empty,
mirrored by the `[]` match arm.) -/
def addStage (stages : List PipelineStage) (cur : List Char)
    (operator : Option PipelineOperator) :
    Except String (List PipelineStage) :=
  if (trimL cur).isEmpty then
    Except.error "Empty command"
  else
    match splitWs (trimL cur) with
    | [] => Except.error "Empty command"
    | c :: args =>
      Except.ok (stages ++ [⟨String.mk c, args.map String.mk, operator⟩])

/-- Embedding of the character-scanning loop of `Pipeline::parse`
(`src/shell/pipeline.rs`, lines 73-118), including the final
non-whitespace-buffer stage emission.  `cur` is the `current_command`
buffer; each list pattern mirrors one `match` arm of the Rust loop,
with the one-character lookahead (`chars.peek()`) expressed by a
two-character pattern on the input.  Note that the `||` arm performs
no trailing-content check (mirroring the source) while the `|` and
`&&` arms do. -/
def parseLoop : List PipelineStage → List Char → List Char →
    Except String (List PipelineStage)
  | stages, cur, [] =>
    if (trimL cur).isEmpty then Except.ok stages
    else addStage stages cur none
  | stages, cur, '|' :: '|' :: rest2 =>
    match addStage stages cur (some PipelineOperator.Or) with
    | Except.error e => Except.error e
    | Except.ok stages2 => parseLoop stages2 [] rest2
  | stages, cur, '|' :: rest =>
    if (trimL rest).isEmpty then
      Except.error "Incomplete pipeline: missing command after |"
    else
      match addStage stages cur (some PipelineOperator.Pipe) with
      | Except.error e => Except.error e
      | Except.ok stages2 => parseLoop stages2 [] rest
  | stages, cur, '&' :: '&' :: rest2 =>
    if (trimL rest2).isEmpty then
      Except.error "Incomplete command: missing command after &&"
    else
      match addStage stages cur (some PipelineOperator.And) with
      | Except.error e => Except.error e
      | Except.ok stages2 => parseLoop stages2 [] rest2
  | stages, cur, ';' :: rest =>
    match addStage stages cur (some PipelineOperator.Sequence) with
    | Except.error e => Except.error e
    | Except.ok stages2 => parseLoop stages2 [] rest
  | stages, cur, '>' :: rest =>
    match addStage stages cur (some PipelineOperator.Redirect) with
    | Except.error e => Except.error e
    | Except.ok stages2 => parseLoop stages2 [] rest
  | stages, cur, c :: rest =>
    parseLoop stages (cur ++ [c]) rest

deriving instance DecidableEq for Except

/-- Embedding of `Pipeline::parse` (`src/shell/pipeline.rs`, lines 68-125):
run the scanning loop from an empty state, then reject an empty stage
list with `ParseError("Empty pipeline")`. -/
def Pipeline.parse (input : String) : Except String Pipeline :=
  match parseLoop [] [] input.data with
  | Except.error e => Except.error e
  | Except.ok stages =>
    if stages.isEmpty then Except.error "Empty pipeline"
    else Except.ok ⟨stages⟩

example : Pipeline.parse "ls -la" =
    Except.ok ⟨[⟨"ls", ["-la"], none⟩]⟩ := by decide

example : Pipeline.parse "ls | grep foo" =
    Except.ok ⟨[⟨"ls", [], some PipelineOperator.Pipe⟩,
                ⟨"grep", ["foo"], none⟩]⟩ := by decide

example : Pipeline.parse "ls |" =
    Except.error "Incomplete pipeline: missing command after |" := by decide

example : Pipeline.parse "ls &&" =
    Except.error "Incomplete command: missing command after &&" := by decide

example : Pipeline.parse "" = Except.error "Empty pipeline" := by decide

/-! ### Basic facts about trimming and stage insertion -/

theorem trimL_eq_nil_iff {l : List Char} :
    trimL l = [] ↔ ∀ c ∈ l, c.isWhitespace = true := by
  unfold trimL
  rw [List.reverse_eq_nil_iff, List.dropWhile_eq_nil_iff]
  constructor
  · intro h c hc
    rw [← List.takeWhile_append_dropWhile (p := Char.isWhitespace) (l := l)]
      at hc
    rcases List.mem_append.1 hc with h1 | h2
    · exact List.mem_takeWhile_imp h1
    · exact h c (List.mem_reverse.2 h2)
  · intro h c hc
    exact h c ((List.dropWhile_sublist _).subset (List.mem_reverse.1 hc))

theorem trimL_isEmpty_true {l : List Char}
    (h : ∀ c ∈ l, c.isWhitespace = true) : (trimL l).isEmpty = true := by
  rw [trimL_eq_nil_iff.2 h]; rfl

theorem trimL_isEmpty_false {l : List Char} {c : Char} (hc : c ∈ l)
    (hw : c.isWhitespace = false) : (trimL l).isEmpty = false := by
  cases htl : trimL l with
  | nil =>
    have := trimL_eq_nil_iff.1 htl c hc
    rw [this] at hw
    exact absurd hw (by simp)
  | cons d t => rfl

theorem addStage_ok {stages : List PipelineStage} {cur : List Char}
    {op : Option PipelineOperator} {res : List PipelineStage}
    (h : addStage stages cur op = Except.ok res) :
    ∃ cm ar, res = stages ++ [⟨cm, ar, op⟩] := by
  unfold addStage at h
  split at h
  · exact Except.noConfusion h
  · split at h
    · exact Except.noConfusion h
    · rename_i c args heq
      injection h with h2
      exact ⟨String.mk c, args.map String.mk, h2.symm⟩

/-- A lone `|` followed only by whitespace fails the trailing-content
check of the single-`|` arm. -/
theorem parseLoop_pipe_ws (stages : List PipelineStage) (cur w : List Char)
    (hw : ∀ c ∈ w, c.isWhitespace = true) :
    parseLoop stages cur ('|' :: w) =
      Except.error "Incomplete pipeline: missing command after |" := by
  have hnp : ∀ rest2 : List Char, w = '|' :: rest2 → False := by
    intro rest2 hw2
    have h1 := hw '|' (by rw [hw2]; exact List.mem_cons_self _ _)
    exact absurd h1 (by decide)
  rw [parseLoop.eq_3 stages cur w hnp, if_pos (trimL_isEmpty_true hw)]

/-- A `&&` followed only by whitespace fails the trailing-content check
of the `&&` arm. -/
theorem parseLoop_and_ws (stages : List PipelineStage) (cur w : List Char)
    (hw : ∀ c ∈ w, c.isWhitespace = true) :
    parseLoop stages cur ('&' :: '&' :: w) =
      Except.error "Incomplete command: missing command after &&" := by
  rw [parseLoop.eq_4, if_pos (trimL_isEmpty_true hw)]

theorem getLast?_cons_of_ne_nil {α : Type} {a : α} {l : List α}
    (h : l ≠ []) : (a :: l).getLast? = l.getLast? := by
  cases l with
  | nil => exact absurd rfl h
  | cons b t => exact List.getLast?_cons_cons

/-! ### Dangling-operator behaviour of the scanner -/

/-- Scanning an input of the form `s ++ "|" ++ w`, where `s` contains no
`|` and `w` is all whitespace, always fails: the trailing single `|` is
rejected by the trailing-content check (or an earlier error occurs). -/
theorem parseLoop_dangling_pipe (w : List Char)
    (hw : ∀ c ∈ w, c.isWhitespace = true) :
    ∀ (stages : List PipelineStage) (cur input : List Char),
      ∀ s : List Char, input = s ++ '|' :: w → '|' ∉ s →
        ∃ e, parseLoop stages cur input = Except.error e := by
  intro stages cur input
  induction stages, cur, input using parseLoop.induct with
  | case1 stages cur h => intro s hs _; simp at hs
  | case2 stages cur h => intro s hs _; simp at hs
  | case3 stages cur rest2 e hadd =>
    intro s hs hnp
    exact ⟨e, by rw [parseLoop.eq_2, hadd]⟩
  | case4 stages cur rest2 stages2 hadd ih =>
    intro s hs hnp
    rcases s with _ | ⟨a, s1⟩
    · injection hs with h1 h2
      have h3 := hw '|' (by rw [← h2]; exact List.mem_cons_self _ _)
      exact absurd h3 (by decide)
    · injection hs with h1 h2
      subst h1
      exact absurd (List.mem_cons_self _ _) hnp
  | case5 stages cur rest hne htrim =>
    intro s hs hnp
    exact ⟨_, by rw [parseLoop.eq_3 _ _ _ hne, if_pos htrim]⟩
  | case6 stages cur rest hne htrim e hadd =>
    intro s hs hnp
    exact ⟨e, by rw [parseLoop.eq_3 _ _ _ hne, if_neg htrim, hadd]⟩
  | case7 stages cur rest hne htrim stages2 hadd ih =>
    intro s hs hnp
    rcases s with _ | ⟨a, s1⟩
    · injection hs with h1 h2
      rw [h2] at htrim
      exact absurd (trimL_isEmpty_true hw) htrim
    · injection hs with h1 h2
      subst h1
      exact absurd (List.mem_cons_self _ _) hnp
  | case8 stages cur rest2 htrim =>
    intro s hs hnp
    exact ⟨_, by rw [parseLoop.eq_4, if_pos htrim]⟩
  | case9 stages cur rest2 htrim e hadd =>
    intro s hs hnp
    exact ⟨e, by rw [parseLoop.eq_4, if_neg htrim, hadd]⟩
  | case10 stages cur rest2 htrim stages2 hadd ih =>
    intro s hs hnp
    rcases s with _ | ⟨a, s1⟩
    · injection hs with h1 h2
      exact absurd h1 (by decide)
    · injection hs with h1 h2
      subst h1
      rcases s1 with _ | ⟨b, s2⟩
      · injection h2 with h3 h4
        exact absurd h3 (by decide)
      · injection h2 with h3 h4
        subst h3
        obtain ⟨e, he⟩ := ih s2 h4 (fun hmem =>
          hnp (List.mem_cons_of_mem _ (List.mem_cons_of_mem _ hmem)))
        exact ⟨e, by rw [parseLoop.eq_4, if_neg htrim, hadd]; exact he⟩
  | case11 stages cur rest e hadd =>
    intro s hs hnp
    exact ⟨e, by rw [parseLoop.eq_5, hadd]⟩
  | case12 stages cur rest stages2 hadd ih =>
    intro s hs hnp
    rcases s with _ | ⟨a, s1⟩
    · injection hs with h1 h2
      exact absurd h1 (by decide)
    · injection hs with h1 h2
      obtain ⟨e, he⟩ := ih s1 h2 (fun hmem => hnp (List.mem_cons_of_mem _ hmem))
      exact ⟨e, by rw [parseLoop.eq_5, hadd]; exact he⟩
  | case13 stages cur rest e hadd =>
    intro s hs hnp
    exact ⟨e, by rw [parseLoop.eq_6, hadd]⟩
  | case14 stages cur rest stages2 hadd ih =>
    intro s hs hnp
    rcases s with _ | ⟨a, s1⟩
    · injection hs with h1 h2
      exact absurd h1 (by decide)
    · injection hs with h1 h2
      obtain ⟨e, he⟩ := ih s1 h2 (fun hmem => hnp (List.mem_cons_of_mem _ hmem))
      exact ⟨e, by rw [parseLoop.eq_6, hadd]; exact he⟩
  | case15 stages cur c rest h1 h2 h3 h4 h5 ih =>
    intro s hs hnp
    rcases s with _ | ⟨a, s1⟩
    · injection hs with ha hb
      exact absurd ha h2
    · injection hs with ha hb
      subst ha
      obtain ⟨e, he⟩ := ih s1 hb (fun hmem => hnp (List.mem_cons_of_mem _ hmem))
      exact ⟨e, by rw [parseLoop.eq_7 _ _ _ _ h1 h2 h3 h4 h5]; exact he⟩

theorem getLast?_ne_of_cons {α : Type} {a : α} {l : List α} {x : α}
    (h : (a :: l).getLast? ≠ some x) : l.getLast? ≠ some x := by
  cases l with
  | nil => simp
  | cons b t =>
    rw [← getLast?_cons_of_ne_nil (List.cons_ne_nil b t)]
    exact h

/-- Scanning an input of the form `s ++ "&&" ++ w`, where `s` does not end
in `&` and `w` is all whitespace, always fails: the trailing `&&` is
rejected by the trailing-content check (or an earlier error occurs). -/
theorem parseLoop_dangling_and (w : List Char)
    (hw : ∀ c ∈ w, c.isWhitespace = true) :
    ∀ (stages : List PipelineStage) (cur input : List Char),
      ∀ s : List Char, input = s ++ '&' :: '&' :: w →
        s.getLast? ≠ some '&' →
        ∃ e, parseLoop stages cur input = Except.error e := by
  intro stages cur input
  induction stages, cur, input using parseLoop.induct with
  | case1 stages cur h => intro s hs _; simp at hs
  | case2 stages cur h => intro s hs _; simp at hs
  | case3 stages cur rest2 e hadd =>
    intro s hs hlast
    exact ⟨e, by rw [parseLoop.eq_2, hadd]⟩
  | case4 stages cur rest2 stages2 hadd ih =>
    intro s hs hlast
    rcases s with _ | ⟨a, s1⟩
    · injection hs with h1 h2
      exact absurd h1 (by decide)
    · injection hs with h1 h2
      rcases s1 with _ | ⟨b, s2⟩
      · injection h2 with h3 h4
        exact absurd h3 (by decide)
      · injection h2 with h3 h4
        obtain ⟨e, he⟩ := ih s2 h4
          (getLast?_ne_of_cons (getLast?_ne_of_cons hlast))
        exact ⟨e, by rw [parseLoop.eq_2, hadd]; exact he⟩
  | case5 stages cur rest hne htrim =>
    intro s hs hlast
    exact ⟨_, by rw [parseLoop.eq_3 _ _ _ hne, if_pos htrim]⟩
  | case6 stages cur rest hne htrim e hadd =>
    intro s hs hlast
    exact ⟨e, by rw [parseLoop.eq_3 _ _ _ hne, if_neg htrim, hadd]⟩
  | case7 stages cur rest hne htrim stages2 hadd ih =>
    intro s hs hlast
    rcases s with _ | ⟨a, s1⟩
    · injection hs with h1 h2
      exact absurd h1 (by decide)
    · injection hs with h1 h2
      obtain ⟨e, he⟩ := ih s1 h2 (getLast?_ne_of_cons hlast)
      exact ⟨e, by rw [parseLoop.eq_3 _ _ _ hne, if_neg htrim, hadd]; exact he⟩
  | case8 stages cur rest2 htrim =>
    intro s hs hlast
    exact ⟨_, by rw [parseLoop.eq_4, if_pos htrim]⟩
  | case9 stages cur rest2 htrim e hadd =>
    intro s hs hlast
    exact ⟨e, by rw [parseLoop.eq_4, if_neg htrim, hadd]⟩
  | case10 stages cur rest2 htrim stages2 hadd ih =>
    intro s hs hlast
    rcases s with _ | ⟨a, s1⟩
    · injection hs with h1 h2
      injection h2 with h3 h4
      rw [h4] at htrim
      exact absurd (trimL_isEmpty_true hw) htrim
    · injection hs with h1 h2
      rcases s1 with _ | ⟨b, s2⟩
      · injection h2 with h3 h4
        subst h1
        simp at hlast
      · injection h2 with h3 h4
        obtain ⟨e, he⟩ := ih s2 h4
          (getLast?_ne_of_cons (getLast?_ne_of_cons hlast))
        exact ⟨e, by rw [parseLoop.eq_4, if_neg htrim, hadd]; exact he⟩
  | case11 stages cur rest e hadd =>
    intro s hs hlast
    exact ⟨e, by rw [parseLoop.eq_5, hadd]⟩
  | case12 stages cur rest stages2 hadd ih =>
    intro s hs hlast
    rcases s with _ | ⟨a, s1⟩
    · injection hs with h1 h2
      exact absurd h1 (by decide)
    · injection hs with h1 h2
      obtain ⟨e, he⟩ := ih s1 h2 (getLast?_ne_of_cons hlast)
      exact ⟨e, by rw [parseLoop.eq_5, hadd]; exact he⟩
  | case13 stages cur rest e hadd =>
    intro s hs hlast
    exact ⟨e, by rw [parseLoop.eq_6, hadd]⟩
  | case14 stages cur rest stages2 hadd ih =>
    intro s hs hlast
    rcases s with _ | ⟨a, s1⟩
    · injection hs with h1 h2
      exact absurd h1 (by decide)
    · injection hs with h1 h2
      obtain ⟨e, he⟩ := ih s1 h2 (getLast?_ne_of_cons hlast)
      exact ⟨e, by rw [parseLoop.eq_6, hadd]; exact he⟩
  | case15 stages cur c rest h1 h2 h3 h4 h5 ih =>
    intro s hs hlast
    rcases s with _ | ⟨a, s1⟩
    · injection hs with ha hb
      exact (h3 w ha hb).elim
    · injection hs with ha hb
      obtain ⟨e, he⟩ := ih s1 hb (getLast?_ne_of_cons hlast)
      exact ⟨e, by rw [parseLoop.eq_7 _ _ _ _ h1 h2 h3 h4 h5]; exact he⟩

/-! ### The non-last-stage operator invariant -/

theorem addStage_some_preserves {stages : List PipelineStage}
    {cur : List Char} {op : PipelineOperator}
    {stages2 : List PipelineStage}
    (hadd : addStage stages cur (some op) = Except.ok stages2)
    (hst : ∀ st ∈ stages, st.operator.isSome = true) :
    ∀ st ∈ stages2, st.operator.isSome = true := by
  obtain ⟨cm, ar, rfl⟩ := addStage_ok hadd
  intro st hmem
  rcases List.mem_append.1 hmem with h | h
  · exact hst st h
  · rw [List.mem_singleton.1 h]
    rfl

/-- Every stage the scanner appends before the end of input carries an
operator, so in any successful scan only the very last stage can lack
one. -/
theorem parseLoop_nonlast_isSome :
    ∀ (stages : List PipelineStage) (cur input : List Char),
      (∀ st ∈ stages, st.operator.isSome = true) →
      ∀ res, parseLoop stages cur input = Except.ok res →
        ∀ st ∈ res.dropLast, st.operator.isSome = true := by
  intro stages cur input
  induction stages, cur, input using parseLoop.induct with
  | case1 stages cur h =>
    intro hst res hpl st hmem
    rw [parseLoop.eq_1, if_pos h] at hpl
    injection hpl with h2
    rw [← h2] at hmem
    exact hst st ((List.dropLast_sublist _).subset hmem)
  | case2 stages cur h =>
    intro hst res hpl st hmem
    rw [parseLoop.eq_1, if_neg h] at hpl
    obtain ⟨cm, ar, rfl⟩ := addStage_ok hpl
    rw [List.dropLast_concat] at hmem
    exact hst st hmem
  | case3 stages cur rest2 e hadd =>
    intro hst res hpl
    rw [parseLoop.eq_2, hadd] at hpl
    exact Except.noConfusion hpl
  | case4 stages cur rest2 stages2 hadd ih =>
    intro hst res hpl
    rw [parseLoop.eq_2, hadd] at hpl
    exact ih (addStage_some_preserves hadd hst) res hpl
  | case5 stages cur rest hne htrim =>
    intro hst res hpl
    rw [parseLoop.eq_3 _ _ _ hne, if_pos htrim] at hpl
    exact Except.noConfusion hpl
  | case6 stages cur rest hne htrim e hadd =>
    intro hst res hpl
    rw [parseLoop.eq_3 _ _ _ hne, if_neg htrim, hadd] at hpl
    exact Except.noConfusion hpl
  | case7 stages cur rest hne htrim stages2 hadd ih =>
    intro hst res hpl
    rw [parseLoop.eq_3 _ _ _ hne, if_neg htrim, hadd] at hpl
    exact ih (addStage_some_preserves hadd hst) res hpl
  | case8 stages cur rest2 htrim =>
    intro hst res hpl
    rw [parseLoop.eq_4, if_pos htrim] at hpl
    exact Except.noConfusion hpl
  | case9 stages cur rest2 htrim e hadd =>
    intro hst res hpl
    rw [parseLoop.eq_4, if_neg htrim, hadd] at hpl
    exact Except.noConfusion hpl
  | case10 stages cur rest2 htrim stages2 hadd ih =>
    intro hst res hpl
    rw [parseLoop.eq_4, if_neg htrim, hadd] at hpl
    exact ih (addStage_some_preserves hadd hst) res hpl
  | case11 stages cur rest e hadd =>
    intro hst res hpl
    rw [parseLoop.eq_5, hadd] at hpl
    exact Except.noConfusion hpl
  | case12 stages cur rest stages2 hadd ih =>
    intro hst res hpl
    rw [parseLoop.eq_5, hadd] at hpl
    exact ih (addStage_some_preserves hadd hst) res hpl
  | case13 stages cur rest e hadd =>
    intro hst res hpl
    rw [parseLoop.eq_6, hadd] at hpl
    exact Except.noConfusion hpl
  | case14 stages cur rest stages2 hadd ih =>
    intro hst res hpl
    rw [parseLoop.eq_6, hadd] at hpl
    exact ih (addStage_some_preserves hadd hst) res hpl
  | case15 stages cur c rest h1 h2 h3 h4 h5 ih =>
    intro hst res hpl
    rw [parseLoop.eq_7 _ _ _ _ h1 h2 h3 h4 h5] at hpl
    exact ih hst res hpl

theorem string_data_append (s t : String) : (s ++ t).data = s.data ++ t.data :=
  rfl

/-- If the scanner fails, `Pipeline.parse` fails with the same message. -/
theorem parse_error_of_parseLoop_error {input : String} {e : String}
    (h : parseLoop [] [] input.data = Except.error e) :
    Pipeline.parse input = Except.error e := by
  unfold Pipeline.parse
  rw [h]

/-! ### Claim theorems about the parser -/

/-- C1, counterexample: the input `"ls ;"` ends with the operator `;`
followed by no non-whitespace content, yet `Pipeline::parse` succeeds
(with a last stage carrying the `Sequence` operator) instead of
returning a `ParseError`. -/
theorem C1_counterexample :
    Pipeline.parse "ls ;" =
      Except.ok ⟨[⟨"ls", [], some PipelineOperator.Sequence⟩]⟩ := by
  decide

/-- C1 (amended): only a trailing single `|` or a trailing `&&` is
rejected by `Pipeline::parse`.  Any input of the form `s ++ "|" ++ w`
(`s` without `|`, `w` whitespace) and any input of the form
`s ++ "&&" ++ w` (`s` not ending in `&`) fails with a `ParseError`,
while inputs ending in `||`, `;` or `>` after a non-empty command parse
successfully, the trailing operator attached to the final stage. -/
theorem C1_trailing_operator_behavior :
    (∀ s w : String, (∀ c ∈ w.data, c.isWhitespace = true) →
      '|' ∉ s.data →
      ∃ e, Pipeline.parse (s ++ "|" ++ w) = Except.error e) ∧
    (∀ s w : String, (∀ c ∈ w.data, c.isWhitespace = true) →
      s.data.getLast? ≠ some '&' →
      ∃ e, Pipeline.parse (s ++ "&&" ++ w) = Except.error e) ∧
    Pipeline.parse "echo hi ||" =
      Except.ok ⟨[⟨"echo", ["hi"], some PipelineOperator.Or⟩]⟩ ∧
    Pipeline.parse "echo hi >" =
      Except.ok ⟨[⟨"echo", ["hi"], some PipelineOperator.Redirect⟩]⟩ := by
  refine ⟨?_, ?_, by decide, by decide⟩
  · intro s w hw hnp
    have hdata : (s ++ "|" ++ w).data = s.data ++ '|' :: w.data := by
      rw [string_data_append, string_data_append]
      simp
    obtain ⟨e, he⟩ := parseLoop_dangling_pipe w.data hw [] []
      (s.data ++ '|' :: w.data) s.data rfl hnp
    exact ⟨e, by rw [show Pipeline.parse (s ++ "|" ++ w) =
      Pipeline.parse ⟨s.data ++ '|' :: w.data⟩ from by rw [← hdata],
      parse_error_of_parseLoop_error he]⟩
  · intro s w hw hlast
    have hdata : (s ++ "&&" ++ w).data = s.data ++ '&' :: '&' :: w.data := by
      rw [string_data_append, string_data_append]
      simp
    obtain ⟨e, he⟩ := parseLoop_dangling_and w.data hw [] []
      (s.data ++ '&' :: '&' :: w.data) s.data rfl hlast
    exact ⟨e, by rw [show Pipeline.parse (s ++ "&&" ++ w) =
      Pipeline.parse ⟨s.data ++ '&' :: '&' :: w.data⟩ from by rw [← hdata],
      parse_error_of_parseLoop_error he]⟩

/-- Witness for `C1_trailing_operator_behavior` at a concrete input. -/
theorem C1_witness :
    ∃ e, Pipeline.parse ("ls " ++ "|" ++ " ") = Except.error e :=
  C1_trailing_operator_behavior.1 "ls " " " (by decide) (by decide)

/-- C2, counterexample: `Pipeline::parse "ls ||"` succeeds and its last
stage's operator is `Some(Or)`, not `None`, contradicting the claimed
invariant that the last stage's operator is always absent. -/
theorem C2_counterexample :
    Pipeline.parse "ls ||" =
      Except.ok ⟨[⟨"ls", [], some PipelineOperator.Or⟩]⟩ ∧
    (⟨"ls", [], some PipelineOperator.Or⟩ : PipelineStage).operator ≠
      none := by
  decide

/-- C2 (amended): in every pipeline value successfully returned by
`Pipeline::parse`, every non-last stage's operator field is `Some(..)`;
the last stage's operator may be `None` or, for inputs ending in `||`,
`;` or `>`, `Some(..)`. -/
theorem C2_nonlast_operator_present (input : String) (p : Pipeline)
    (h : Pipeline.parse input = Except.ok p) :
    ∀ st ∈ p.stages.dropLast, st.operator.isSome = true := by
  unfold Pipeline.parse at h
  cases hpl : parseLoop [] [] input.data with
  | error e =>
    rw [hpl] at h
    exact Except.noConfusion h
  | ok stages =>
    rw [hpl] at h
    have h2 : (if stages.isEmpty = true then
        (Except.error "Empty pipeline" : Except String Pipeline)
      else Except.ok ⟨stages⟩) = Except.ok p := h
    split at h2
    · exact Except.noConfusion h2
    · injection h2 with h3
      have hinv := parseLoop_nonlast_isSome [] [] input.data
        (by intro st hmem; exact absurd hmem (List.not_mem_nil st))
        stages hpl
      rw [← h3]
      exact hinv

/-- Witness for `C2_nonlast_operator_present` at a concrete input. -/
theorem C2_witness :
    (⟨"ls", [], some PipelineOperator.Pipe⟩ : PipelineStage).operator.isSome
      = true :=
  C2_nonlast_operator_present "ls | grep foo"
    ⟨[⟨"ls", [], some PipelineOperator.Pipe⟩, ⟨"grep", ["foo"], none⟩]⟩
    (by decide) ⟨"ls", [], some PipelineOperator.Pipe⟩ (by decide)

/-- C10: a single `&` that is not immediately followed by another `&` is
treated as an ordinary character: the scanner accumulates it into the
current command buffer and it never terminates a stage or acts as an
operator; e.g. `"a& b"` parses as the single command `a&` with argument
`b`. -/
theorem C10_single_amp_accumulates :
    (∀ (stages : List PipelineStage) (cur rest : List Char),
      rest.head? ≠ some '&' →
      parseLoop stages cur ('&' :: rest) =
        parseLoop stages (cur ++ ['&']) rest) ∧
    Pipeline.parse "a& b" = Except.ok ⟨[⟨"a&", ["b"], none⟩]⟩ := by
  constructor
  · intro stages cur rest hr
    refine parseLoop.eq_7 stages cur '&' rest ?_ (by decide) ?_ (by decide)
      (by decide)
    · intro rest2 hc
      exact absurd hc (by decide)
    · intro rest2 _ hr2
      exact hr (by rw [hr2]; rfl)
  · decide

/-- Witness for `C10_single_amp_accumulates` at a concrete input. -/
theorem C10_witness :
    parseLoop [] [] ('&' :: ['x']) = parseLoop [] ['&'] ['x'] :=
  C10_single_amp_accumulates.1 [] [] ['x'] (by decide)

/-! ### Alias expansion -/

/-- Lookup in the alias table (`AliasManager::get`,
`src/core/config/aliases.rs`, lines 19-21); the `HashMap` is modelled as
an association list. -/
def aliasGet (aliases : List (String × String)) (cmd : String) :
    Option String :=
  (aliases.find? (fun p => p.1 = cmd)).map (fun p => p.2)

/-- Model of Rust `Vec::join(" ")`: interleave a single space between the
elements. -/
def joinSpace : List (List Char) → List Char
  | [] => []
  | [t] => t
  | t :: u :: rest => t ++ ' ' :: joinSpace (u :: rest)

/-- Embedding of `AliasManager::expand_command`
(`src/core/config/aliases.rs`, lines 23-32): whitespace-split the command
line; if the first token is an alias key, replace that token (as a single
part) by the alias value and re-join all parts with single spaces;
otherwise return the line unchanged. -/
def expand_command (aliases : List (String × String)) (command : String) :
    String :=
  match splitWs command.data with
  | [] => command
  | first :: restParts =>
    match aliasGet aliases (String.mk first) with
    | some aliasValue =>
      String.mk (joinSpace (aliasValue.data :: restParts))
    | none => command

example : expand_command [("ll", "ls -la")] "ll /home" = "ls -la /home" := by
  decide

example : expand_command [("ll", "ls -la")] "ls -l" = "ls -l" := by decide

/-! ### Tokens of `splitWs` -/

theorem splitWsAux_tokens {acc l : List Char}
    (hacc : ∀ c ∈ acc, c.isWhitespace = false) :
    ∀ t ∈ splitWsAux acc l, t ≠ [] ∧ ∀ c ∈ t, c.isWhitespace = false := by
  induction l generalizing acc with
  | nil =>
    intro t ht
    unfold splitWsAux at ht
    split at ht
    · exact absurd ht (List.not_mem_nil t)
    · rename_i hne
      rw [List.mem_singleton.1 ht]
      refine ⟨fun hrev => ?_, fun c hc => hacc c (List.mem_reverse.1 hc)⟩
      rw [List.reverse_eq_nil_iff] at hrev
      rw [hrev] at hne
      exact hne rfl
  | cons c rest ih =>
    intro t ht
    unfold splitWsAux at ht
    by_cases hwc : c.isWhitespace = true
    · rw [if_pos hwc] at ht
      split at ht
      · exact ih (fun c hc => absurd hc (List.not_mem_nil c)) t ht
      · rcases List.mem_cons.1 ht with h | h
        · rename_i hne
          rw [h]
          refine ⟨fun hrev => ?_,
            fun d hd => hacc d (List.mem_reverse.1 hd)⟩
          rw [List.reverse_eq_nil_iff] at hrev
          rw [hrev] at hne
          exact hne rfl
        · exact ih (fun d hd => absurd hd (List.not_mem_nil d)) t h
    · rw [if_neg hwc] at ht
      refine ih ?_ t ht
      intro d hd
      rcases List.mem_cons.1 hd with h | h
      · rw [h]
        exact Bool.eq_false_iff.2 hwc
      · exact hacc d h

theorem splitWs_tokens {l : List Char} :
    ∀ t ∈ splitWs l, t ≠ [] ∧ ∀ c ∈ t, c.isWhitespace = false :=
  splitWsAux_tokens (fun c hc => absurd hc (List.not_mem_nil c))

theorem splitWsAux_nil (acc : List Char) :
    splitWsAux acc [] = if acc.isEmpty then [] else [acc.reverse] := rfl

theorem splitWsAux_cons (acc : List Char) (c : Char) (rest : List Char) :
    splitWsAux acc (c :: rest) =
      if c.isWhitespace then
        if acc.isEmpty then splitWsAux [] rest
        else acc.reverse :: splitWsAux [] rest
      else splitWsAux (c :: acc) rest := rfl

theorem splitWsAux_append_space (y : List Char) :
    ∀ (x acc : List Char),
      splitWsAux acc (x ++ ' ' :: y) = splitWsAux acc x ++ splitWsAux [] y := by
  intro x
  induction x with
  | nil =>
    intro acc
    show splitWsAux acc (' ' :: y) = splitWsAux acc [] ++ splitWsAux [] y
    rw [splitWsAux_cons, splitWsAux_nil, if_pos (by decide)]
    by_cases hacc : acc.isEmpty = true
    · rw [if_pos hacc, if_pos hacc]
      rfl
    · rw [if_neg hacc, if_neg hacc]
      rfl
  | cons c x ih =>
    intro acc
    show splitWsAux acc (c :: (x ++ ' ' :: y)) =
      splitWsAux acc (c :: x) ++ splitWsAux [] y
    rw [splitWsAux_cons, splitWsAux_cons]
    by_cases hwc : c.isWhitespace = true
    · rw [if_pos hwc, if_pos hwc]
      by_cases hacc : acc.isEmpty = true
      · rw [if_pos hacc, if_pos hacc]
        exact ih []
      · rw [if_neg hacc, if_neg hacc, ih []]
        rfl
    · rw [if_neg hwc, if_neg hwc]
      exact ih (c :: acc)

theorem splitWsAux_no_ws {t : List Char}
    (ht : ∀ c ∈ t, c.isWhitespace = false) :
    ∀ acc : List Char, splitWsAux acc t =
      if acc.isEmpty ∧ t.isEmpty then [] else [acc.reverse ++ t] := by
  induction t with
  | nil =>
    intro acc
    rw [splitWsAux_nil]
    by_cases hacc : acc.isEmpty = true
    · rw [if_pos hacc, if_pos ⟨hacc, rfl⟩]
    · rw [if_neg hacc, if_neg (fun h => hacc h.1)]
      simp
  | cons c t ih =>
    intro acc
    rw [splitWsAux_cons]
    have hwc : c.isWhitespace = false := ht c (List.mem_cons_self _ _)
    rw [if_neg (by rw [hwc]; exact Bool.false_ne_true)]
    rw [ih (fun d hd => ht d (List.mem_cons_of_mem _ hd)) (c :: acc)]
    have h1 : ¬((c :: acc).isEmpty = true ∧ t.isEmpty = true) := by
      intro h
      exact absurd h.1 (by simp)
    rw [if_neg h1, if_neg (fun h => absurd h.2 (by simp))]
    simp

/-- A non-empty whitespace-free token splits to itself. -/
theorem splitWs_single_token {t : List Char} (hne : t ≠ [])
    (ht : ∀ c ∈ t, c.isWhitespace = false) : splitWs t = [t] := by
  unfold splitWs
  rw [splitWsAux_no_ws ht []]
  rw [if_neg (by intro h; exact hne (List.isEmpty_iff.1 h.2))]
  rfl

/-- Joining whitespace-free non-empty tokens with spaces and re-splitting
recovers exactly the tokens. -/
theorem splitWs_joinSpace {toks : List (List Char)}
    (h : ∀ t ∈ toks, t ≠ [] ∧ ∀ c ∈ t, c.isWhitespace = false) :
    splitWs (joinSpace toks) = toks := by
  induction toks with
  | nil => rfl
  | cons t rest ih =>
    cases rest with
    | nil =>
      obtain ⟨hne, hws⟩ := h t (List.mem_cons_self _ _)
      exact splitWs_single_token hne hws
    | cons u rr =>
      show splitWs (t ++ ' ' :: joinSpace (u :: rr)) = t :: u :: rr
      unfold splitWs
      rw [splitWsAux_append_space]
      obtain ⟨hne, hws⟩ := h t (List.mem_cons_self _ _)
      rw [show splitWsAux [] t = splitWs t from rfl,
        splitWs_single_token hne hws]
      rw [show splitWsAux [] (joinSpace (u :: rr)) =
        splitWs (joinSpace (u :: rr)) from rfl]
      rw [ih (fun x hx => h x (List.mem_cons_of_mem _ hx))]
      rfl

/-- Expansion of a line whose first token matches no alias key is the
identity (the `Cow::Borrowed` path of `expand_command`). -/
theorem expand_command_no_match (aliases : List (String × String))
    (command : String)
    (h : ∀ first ∈ (splitWs command.data).head?,
      aliasGet aliases (String.mk first) = none) :
    expand_command aliases command = command := by
  unfold expand_command
  cases hsp : splitWs command.data with
  | nil => rfl
  | cons first rest =>
    show (match aliasGet aliases (String.mk first) with
      | some aliasValue => String.mk (joinSpace (aliasValue.data :: rest))
      | none => command) = command
    rw [h first (by rw [hsp]; rfl)]

/-! ### Environment-variable expansion -/

/-- Index of the first character satisfying `p` (Rust `str::find`). -/
def findIdxP (p : Char → Bool) : List Char → Option Nat
  | [] => none
  | c :: rest =>
    if p c then some 0
    else (findIdxP p rest).map (fun i => i + 1)

/-- One variable-name character: Rust `!c.is_alphanumeric() && c != '_'`
negated, i.e. the characters that extend a `$NAME` reference (restricted
to the ASCII behaviour of `char::is_alphanumeric`). -/
def isVarChar (c : Char) : Bool := c.isAlphanum || c = '_'

/-- Embedding of the environment-variable substitution loop shared by
`Shell::expand_env_vars` (`src/shell/environment.rs`, lines 6-28, which
reads the process environment) and `Pipeline::expand_env_vars`
(`src/shell/pipeline.rs`, lines 274-300, which reads an explicit map);
the variable store is abstracted as a lookup function.  The Rust `while`
loop re-scans the whole string from the start after each replacement;
`fuel` bounds the number of iterations and `none` models
non-termination of the loop. -/
def expandEnvVars : Nat → (String → Option String) → String → Option String
  | 0, _, _ => none
  | fuel + 1, env, s =>
    match findIdxP (fun c => c = '$') s.data with
    | none => some s
    | some dollarPos =>
      if s.data.length ≤ dollarPos + 1 then some s
      else
        let varEnd :=
          match findIdxP (fun c => !isVarChar c)
              (s.data.drop (dollarPos + 1)) with
          | none => s.data.length
          | some p => p + dollarPos + 1
        let varName :=
          String.mk ((s.data.drop (dollarPos + 1)).take
            (varEnd - (dollarPos + 1)))
        let value := (env varName).getD ""
        expandEnvVars fuel env
          (String.mk (s.data.take dollarPos ++ value.data ++
            s.data.drop varEnd))

theorem expandEnvVars_succ (fuel : Nat) (env : String → Option String)
    (s : String) :
    expandEnvVars (fuel + 1) env s =
      match findIdxP (fun c => c = '$') s.data with
      | none => some s
      | some dollarPos =>
        if s.data.length ≤ dollarPos + 1 then some s
        else
          let varEnd :=
            match findIdxP (fun c => !isVarChar c)
                (s.data.drop (dollarPos + 1)) with
            | none => s.data.length
            | some p => p + dollarPos + 1
          let varName :=
            String.mk ((s.data.drop (dollarPos + 1)).take
              (varEnd - (dollarPos + 1)))
          let value := (env varName).getD ""
          expandEnvVars fuel env
            (String.mk (s.data.take dollarPos ++ value.data ++
              s.data.drop varEnd)) := rfl

theorem findIdxP_eq_none {p : Char → Bool} {l : List Char}
    (h : ∀ c ∈ l, p c = false) : findIdxP p l = none := by
  induction l with
  | nil => rfl
  | cons c rest ih =>
    unfold findIdxP
    rw [if_neg (by rw [h c (List.mem_cons_self _ _)]; exact Bool.false_ne_true)]
    rw [ih (fun d hd => h d (List.mem_cons_of_mem _ hd))]
    rfl

theorem findIdxP_none_spec {p : Char → Bool} {l : List Char}
    (h : findIdxP p l = none) : ∀ c ∈ l, p c = false := by
  induction l with
  | nil => intro c hc; exact absurd hc (List.not_mem_nil c)
  | cons c rest ih =>
    intro d hd
    unfold findIdxP at h
    by_cases hp : p c = true
    · rw [if_pos hp] at h
      exact Option.noConfusion h
    · rw [if_neg hp] at h
      rcases List.mem_cons.1 hd with h1 | h1
      · rw [h1]
        exact Bool.eq_false_iff.2 hp
      · refine ih ?_ d h1
        cases hfi : findIdxP p rest with
        | none => rfl
        | some k =>
          rw [hfi] at h
          exact Option.noConfusion h

theorem findIdxP_some_spec {p : Char → Bool} {l : List Char} :
    ∀ {i : Nat}, findIdxP p l = some i →
      ∃ hi : i < l.length, p (l.get ⟨i, hi⟩) = true ∧
        ∀ j (hj : j < l.length), j < i → p (l.get ⟨j, hj⟩) = false := by
  induction l with
  | nil => intro i h; exact Option.noConfusion h
  | cons c rest ih =>
    intro i h
    unfold findIdxP at h
    by_cases hp : p c = true
    · rw [if_pos hp] at h
      injection h with h0
      rw [← h0]
      exact ⟨Nat.succ_pos _, hp, fun j hj hji =>
        absurd hji (Nat.not_lt_zero j)⟩
    · rw [if_neg hp] at h
      cases hfi : findIdxP p rest with
      | none =>
        rw [hfi] at h
        exact Option.noConfusion h
      | some k =>
        rw [hfi] at h
        injection h with h0
        obtain ⟨hk, hpk, hmin⟩ := ih hfi
        rw [← h0]
        refine ⟨Nat.succ_lt_succ hk, hpk, ?_⟩
        intro j hj hjk
        cases j with
        | zero => exact Bool.eq_false_iff.2 hp
        | succ j2 =>
          exact hmin j2 (Nat.lt_of_succ_lt_succ hj)
            (Nat.lt_of_succ_lt_succ hjk)

/-- A string in which any `$` can only occur as the very last character
(so no `$NAME` reference remains). -/
def dollarOnlyLast (s : String) : Prop :=
  ∀ i (hi : i < s.data.length),
    s.data.get ⟨i, hi⟩ = '$' → i = s.data.length - 1

/-- Whenever the substitution loop terminates, its output contains no
`$` except possibly as the final character: no literal `$NAME` is ever
left in the output. -/
theorem expandEnvVars_dollarOnlyLast :
    ∀ (fuel : Nat) (env : String → Option String) (s r : String),
      expandEnvVars fuel env s = some r → dollarOnlyLast r := by
  intro fuel
  induction fuel with
  | zero => intro env s r h; exact Option.noConfusion h
  | succ fuel ih =>
    intro env s r h
    rw [expandEnvVars_succ] at h
    split at h
    · rename_i hfi
      injection h with h0
      rw [← h0]
      intro i hi hget
      have hfalse := findIdxP_none_spec hfi (s.data.get ⟨i, hi⟩)
        (s.data.get_mem i hi)
      rw [hget] at hfalse
      exact absurd hfalse (by simp)
    · rename_i dollarPos hfi
      split at h
      · rename_i hlen
        injection h with h0
        rw [← h0]
        obtain ⟨hd, hpd, hmin⟩ := findIdxP_some_spec hfi
        intro i hi hget
        rcases Nat.lt_or_ge i dollarPos with h1 | h1
        · have h2 := hmin i hi h1
          rw [hget] at h2
          exact absurd h2 (by simp)
        · omega
      · exact ih env _ r h

/-! ### Concrete alias tables and environments for the claims -/

def aliasLL : List (String × String) := [("ll", "ls -la")]

def aliasChain : List (String × String) := [("ll", "foo bar"), ("foo", "baz")]

def envHOME : String → Option String :=
  fun n => if n = "HOME" then some "/home/u" else none

def envUnset : String → Option String := fun _ => none

def envAB : String → Option String :=
  fun n => if n = "A" then some "$B" else if n = "B" then some "x" else none

/-- A `$`-free string is returned unchanged by one pass of the
substitution loop (the `find` returns nothing and the loop exits). -/
theorem expandEnvVars_no_dollar (fuel : Nat) (env : String → Option String)
    (s : String) (h : '$' ∉ s.data) :
    expandEnvVars (fuel + 1) env s = some s := by
  rw [expandEnvVars_succ, findIdxP_eq_none (fun c hc =>
    decide_eq_false (fun he : c = '$' => h (he ▸ hc)))]

/-! ### Claim theorems about expansion -/

/-- C4, counterexample: with alias `ll -> "ls -la"`, expanding
`"ll a  b"` yields `"ls -la a b"`: the double space between the trailing
arguments is collapsed, so the rest of the line is not left untouched. -/
theorem C4_counterexample :
    expand_command aliasLL "ll a  b" = "ls -la a b" ∧
    ("ls -la a b" : String) ≠ "ls -la a  b" := by
  decide

/-- C4 (amended): alias substitution replaces the first
whitespace-delimited token of a command line when it matches an alias
key and re-joins the alias value with the remaining tokens using single
spaces: the remaining tokens are preserved in order but the whitespace
between them is normalized rather than untouched.  With alias
`ll -> "ls -la"`, expanding `"ll /tmp"` yields `"ls -la /tmp"`, and a
line whose first token matches no alias is returned completely
unchanged (identity). -/
theorem C4_alias_first_token :
    expand_command aliasLL "ll /tmp" = "ls -la /tmp" ∧
    (∀ (aliases : List (String × String)) (command : String),
      (∀ first ∈ (splitWs command.data).head?,
        aliasGet aliases (String.mk first) = none) →
      expand_command aliases command = command) ∧
    (∀ (aliases : List (String × String)) (command : String)
        (first : List Char) (rest : List (List Char)) (v : String),
      splitWs command.data = first :: rest →
      aliasGet aliases (String.mk first) = some v →
      splitWs (expand_command aliases command).data =
        splitWs v.data ++ rest) := by
  refine ⟨by decide, expand_command_no_match, ?_⟩
  intro aliases command first rest v hsp hget
  unfold expand_command
  rw [hsp]
  show splitWs (match aliasGet aliases (String.mk first) with
    | some aliasValue => String.mk (joinSpace (aliasValue.data :: rest))
    | none => command).data = splitWs v.data ++ rest
  rw [hget]
  show splitWs (joinSpace (v.data :: rest)) = splitWs v.data ++ rest
  cases rest with
  | nil =>
    show splitWs v.data = splitWs v.data ++ []
    rw [List.append_nil]
  | cons u rr =>
    show splitWs (v.data ++ ' ' :: joinSpace (u :: rr)) =
      splitWs v.data ++ u :: rr
    show splitWsAux [] (v.data ++ ' ' :: joinSpace (u :: rr)) =
      splitWs v.data ++ u :: rr
    rw [splitWsAux_append_space]
    rw [show splitWsAux [] (joinSpace (u :: rr)) =
      splitWs (joinSpace (u :: rr)) from rfl]
    rw [splitWs_joinSpace (fun t ht => splitWs_tokens (l := command.data) t
      (by rw [hsp]; exact List.mem_cons_of_mem _ ht))]
    rfl

/-- Witness for `C4_alias_first_token` at a concrete input. -/
theorem C4_witness :
    splitWs (expand_command aliasLL "ll /tmp").data =
      splitWs ("ls -la" : String).data ++ [['/', 't', 'm', 'p']] :=
  C4_alias_first_token.2.2 aliasLL "ll /tmp" ['l', 'l']
    [['/', 't', 'm', 'p']] "ls -la" (by decide) (by decide)

/-- C5, counterexample: environment-variable substitution is not
non-recursive: with `A = "$B"` and `B = "x"`, expanding `"$A"` yields
`"x"` — the substituted value `"$B"` was itself re-expanded (the loop
re-scans from the start of the string after each replacement). -/
theorem C5_counterexample :
    expandEnvVars 3 envAB "$A" = some "x" ∧ ("x" : String) ≠ "$B" := by
  decide

/-- C5 (amended): alias substitution is non-recursive (a substituted
alias value is not itself re-expanded) and expansion is idempotent on
already-expanded strings: a string with no `$` is returned unchanged by
the variable loop and a line whose first token matches no alias is
returned unchanged by alias expansion.  Environment-variable
substitution, however, re-scans from the start after each replacement,
so a substituted variable value containing `$` is itself re-expanded. -/
theorem C5_expansion_semantics :
    (∀ (fuel : Nat) (env : String → Option String) (s : String),
      '$' ∉ s.data → expandEnvVars (fuel + 1) env s = some s) ∧
    (∀ (aliases : List (String × String)) (command : String),
      (∀ first ∈ (splitWs command.data).head?,
        aliasGet aliases (String.mk first) = none) →
      expand_command aliases command = command) ∧
    expand_command aliasChain "ll x" = "foo bar x" ∧
    ("foo bar x" : String) ≠ "baz bar x" ∧
    expandEnvVars 3 envAB "$A" = some "x" ∧
    ("x" : String) ≠ "$B" := by
  exact ⟨fun fuel env s h => expandEnvVars_no_dollar fuel env s h,
    expand_command_no_match, by decide, by decide, by decide, by decide⟩

/-- Witness for `C5_expansion_semantics` at a concrete input. -/
theorem C5_witness :
    expandEnvVars 1 envUnset "abc" = some "abc" :=
  C5_expansion_semantics.1 0 envUnset "abc" (by decide)

/-- C6: environment-variable substitution finds each `$`, takes the
maximal run of alphanumeric/underscore characters as the name, and
replaces the `$name` span by the variable's value (empty if unset):
with `HOME=/home/u`, `"$HOME/bin"` expands to `"/home/u/bin"`; with
`HOME` unset it expands to `"/bin"`; and whenever the loop terminates
its output contains no literal `$NAME` (any `$` can survive only as the
final character). -/
theorem C6_env_substitution :
    expandEnvVars 2 envHOME "$HOME/bin" = some "/home/u/bin" ∧
    expandEnvVars 2 envUnset "$HOME/bin" = some "/bin" ∧
    (∀ (fuel : Nat) (env : String → Option String) (s r : String),
      expandEnvVars fuel env s = some r → dollarOnlyLast r) := by
  exact ⟨by decide, by decide, expandEnvVars_dollarOnlyLast⟩

/-- Witness for `C6_env_substitution` at a concrete input. -/
theorem C6_witness : dollarOnlyLast "/home/u/bin" :=
  C6_env_substitution.2.2 2 envHOME "$HOME/bin" "/home/u/bin" (by decide)

/-! ### Path expansion (`src/path/expander.rs`) -/

/-- Embedding of `PathExpander::expand_tilde` (`src/path/expander.rs`,
lines 26-37); the home directory is abstracted as an optional string and
`PathBuf::join` is modelled as concatenation with a `/` separator. -/
def expandTilde (home : Option String) (path : String) :
    Except String String :=
  match home with
  | none => Except.error "Home directory not found"
  | some homeDir =>
    if path = "~" then Except.ok homeDir
    else if path.data.take 2 = ['~', '/'] then
      Except.ok (homeDir ++ "/" ++ String.mk (path.data.drop 2))
    else Except.ok path

/-- Embedding of `PathExpander::expand` (`src/path/expander.rs`, lines
18-24): tilde-expand paths starting with `~`, pass others through. -/
def pathExpand (home : Option String) (path : String) :
    Except String String :=
  if path.data.head? = some '~' then expandTilde home path
  else Except.ok path

/-! ### Process spawner (`src/process/executor.rs`) -/

/-- Abstraction of `std::io::ErrorKind` as used by the spawner: the
`NotFound` kind is distinguished, all other kinds are collapsed into
`other` carrying the error text. -/
inductive IoErrorKind where
  | NotFound
  | other (msg : String)
  deriving DecidableEq

/-- `ProcessError` (`src/process/mod.rs`, lines 6-11). -/
inductive ProcessError where
  | CommandNotFound (cmd : String)
  | SignalError (msg : String)
  | Other (msg : String)
  deriving DecidableEq

/-- Outcome of `Child::wait`: a child exit code, or a wait failure. -/
inductive WaitOutcome where
  | exited (code : Int)
  | waitErr (kind : IoErrorKind)
  deriving DecidableEq

/-- The operating system's responses to one spawn attempt, abstracted:
what `Command::spawn` returns for the given (expanded) argument vector,
and what `Child::wait` subsequently reports. -/
structure OsModel where
  spawn : List String → Except IoErrorKind Unit
  wait : WaitOutcome

/-- Per-argument tilde expansion performed by `spawn_process`
(`src/process/executor.rs`, lines 23-35): expand arguments containing
`~`, falling back to the raw argument if expansion fails. -/
def expandArg (home : Option String) (arg : String) : String :=
  if '~' ∈ arg.data then
    match pathExpand home arg with
    | Except.ok p => p
    | Except.error _ => arg
  else arg

/-- Embedding of `CommandExecutor::spawn_process`
(`src/process/executor.rs`, lines 22-77).  Returns the call's result
together with the diagnostic lines it prints.  A spawn failure of kind
`NotFound` is downgraded to success with a "command not found"
diagnostic (suppressed in quiet mode); any other spawn failure becomes
`ProcessError::Other`.  After a successful spawn the signal-handler
installation (`src/process/signal.rs`, always `Ok`) is a no-op here,
and `wait` reports a non-zero exit status as an informational message
unless quiet; a `NotFound` wait failure maps to
`ProcessError::CommandNotFound` and any other wait failure is
propagated.  (`args[0]` is modelled by `headD ""`; the Rust code
requires a non-empty argument vector.) -/
def spawn_process (quiet : Bool) (home : Option String) (os : OsModel)
    (args : List String) : Except ProcessError Unit × List String :=
  match os.spawn (args.map (expandArg home)) with
  | Except.error IoErrorKind.NotFound =>
    (Except.ok (), if quiet then []
      else ["aorta: command not found: " ++ args.headD ""])
  | Except.error (IoErrorKind.other msg) =>
    (Except.error (ProcessError.Other msg), [])
  | Except.ok () =>
    match os.wait with
    | WaitOutcome.exited code =>
      (Except.ok (), if code ≠ 0 ∧ ¬quiet then
        ["Process exited with status: " ++ toString code] else [])
    | WaitOutcome.waitErr IoErrorKind.NotFound =>
      (Except.error (ProcessError.CommandNotFound (args.headD "")), [])
    | WaitOutcome.waitErr (IoErrorKind.other msg) =>
      (Except.error (ProcessError.Other msg), [])

/-- C7: a spawn failure of kind `NotFound` makes `spawn_process` return
`Ok(())` with a "command not found" diagnostic unless quiet mode is
set; every other spawn failure propagates as a `ProcessError`. -/
theorem C7_not_found_spawn :
    (∀ (quiet : Bool) (home : Option String) (os : OsModel)
        (args : List String),
      os.spawn (args.map (expandArg home)) =
        Except.error IoErrorKind.NotFound →
      spawn_process quiet home os args =
        (Except.ok (), if quiet then []
          else ["aorta: command not found: " ++ args.headD ""])) ∧
    (∀ (quiet : Bool) (home : Option String) (os : OsModel)
        (args : List String) (msg : String),
      os.spawn (args.map (expandArg home)) =
        Except.error (IoErrorKind.other msg) →
      (spawn_process quiet home os args).1 =
        Except.error (ProcessError.Other msg)) := by
  constructor
  · intro quiet home os args h
    unfold spawn_process
    rw [h]
  · intro quiet home os args msg h
    unfold spawn_process
    rw [h]

def osNotFound : OsModel :=
  ⟨fun _ => Except.error IoErrorKind.NotFound, WaitOutcome.exited 0⟩

/-- Witness for `C7_not_found_spawn` at a concrete input. -/
theorem C7_witness :
    spawn_process false none osNotFound ["nonexistent-binary-xyz"] =
      (Except.ok (), ["aorta: command not found: nonexistent-binary-xyz"])
    := by
  have h := C7_not_found_spawn.1 false none osNotFound
    ["nonexistent-binary-xyz"] rfl
  simpa using h

/-! ### The `cd` builtin (`src/core/commands/cd.rs`) -/

/-- `CommandError` (`src/core/commands/mod.rs`, lines 24-32); the
`io::Error`, `ProcessError` and `HistoryError` payloads are modelled by
their message strings where not needed in structured form. -/
inductive CommandError where
  | NotFound (cmd : String)
  | InvalidArguments (msg : String)
  | ExecutionError (msg : String)
  | IoError (msg : String)
  | ProcessErrorWrap (e : ProcessError)
  | HistoryError (msg : String)
  deriving DecidableEq

/-- The file-system state visible to `cd`: the current working directory
and the set of existing directories. -/
structure FsState where
  cwd : String
  dirs : List String
  deriving DecidableEq

/-- Models `std::env::set_current_dir` (POSIX `chdir`): succeeds exactly
when the target is an existing directory; on failure the working
directory is untouched. -/
def setCurrentDir (fs : FsState) (path : String) :
    Except String FsState :=
  if path ∈ fs.dirs then Except.ok { fs with cwd := path }
  else Except.error ("No such file or directory: " ++ path)

/-- Embedding of `CdCommand::execute` (`src/core/commands/cd.rs`, lines
24-35): default the target to `~`, tilde-expand it, and change the
process working directory, mapping either failure to
`CommandError::ExecutionError`. -/
def cdExecute (home : Option String) (fs : FsState)
    (args : List String) : Except CommandError Unit × FsState :=
  match pathExpand home ((args.head?).getD "~") with
  | Except.error e => (Except.error (CommandError.ExecutionError e), fs)
  | Except.ok expandedPath =>
    match setCurrentDir fs expandedPath with
    | Except.error e =>
      (Except.error (CommandError.ExecutionError
        ("Failed to change directory: " ++ e)), fs)
    | Except.ok fs2 => (Except.ok (), fs2)

/-- C9: `cd` with a target that (after expansion) is not an existing
directory returns `CommandError::ExecutionError` and leaves the working
directory unchanged. -/
theorem C9_cd_failure :
    ∀ (home : Option String) (fs : FsState) (args : List String),
      (∀ q, pathExpand home ((args.head?).getD "~") = Except.ok q →
        q ∉ fs.dirs) →
      (∃ m, (cdExecute home fs args).1 =
        Except.error (CommandError.ExecutionError m)) ∧
      (cdExecute home fs args).2 = fs := by
  intro home fs args h
  unfold cdExecute
  cases hpe : pathExpand home ((args.head?).getD "~") with
  | error e => exact ⟨⟨e, rfl⟩, rfl⟩
  | ok q =>
    have hq : q ∉ fs.dirs := h q hpe
    show (∃ m, (match setCurrentDir fs q with
      | Except.error e =>
        (Except.error (CommandError.ExecutionError
          ("Failed to change directory: " ++ e)), fs)
      | Except.ok fs2 => (Except.ok (), fs2)).1 =
        Except.error (CommandError.ExecutionError m)) ∧
      (match setCurrentDir fs q with
      | Except.error e =>
        (Except.error (CommandError.ExecutionError
          ("Failed to change directory: " ++ e)), fs)
      | Except.ok fs2 => (Except.ok (), fs2)).2 = fs
    unfold setCurrentDir
    rw [if_neg hq]
    exact ⟨⟨_, rfl⟩, rfl⟩

def fsDemo : FsState := ⟨"/", ["/", "/tmp"]⟩

/-- Witness for `C9_cd_failure` at a concrete input. -/
theorem C9_witness :
    (∃ m, (cdExecute (some "/home/u") fsDemo ["/nonexistent"]).1 =
      Except.error (CommandError.ExecutionError m)) ∧
    (cdExecute (some "/home/u") fsDemo ["/nonexistent"]).2 = fsDemo :=
  C9_cd_failure (some "/home/u") fsDemo ["/nonexistent"] (by
    intro q hq
    rw [show pathExpand (some "/home/u")
      (((["/nonexistent"] : List String).head?).getD "~") =
      Except.ok "/nonexistent" from rfl] at hq
    injection hq with h2
    rw [← h2]
    decide)

/-! ### The pipeline executor (`Pipeline::execute_with_context`) -/

/-- One observable effect of executing a pipeline. -/
inductive Effect where
  | execCall (cmd : String) (args : List String)
  | spawnCapture (cmd : String) (args : List String)
  | writeFile (path : String) (content : List Char)
  | removeFile (path : String)
  | printOut (s : String)
  deriving DecidableEq

/-- Oracles for the external world consulted by the executor: whether
`executor.execute` succeeds, the captured stdout of a spawned command
(`none` modelling a spawn failure), the result of `fs::read` on a path,
and the process id used to name the grep temp files. -/
structure ExecContext where
  exec : String → List String → Bool
  cmdOutput : String → List String → Option (List Char)
  readFile : String → Option (List Char)
  pid : Nat

/-- Embedding of the stage loop of `Pipeline::execute_with_context`
(`src/shell/pipeline.rs`, lines 151-272), walking the remaining stages
with the currently captured output (`previous_output`).  Per stage, the
alias table is consulted on the stage's command (lines 161-171; an alias
value with no tokens would make `expanded_parts[0]` panic in Rust,
modelled by an error), then the stage's own operator decides: `Pipe`
captures output (with the `grep` temp-file special case), `And`/`Or`/
`Sequence`/no-operator dispatch through the executor discarding any
captured buffer, and `Redirect` writes the captured (or freshly
captured) output to the path in the next stage's `command` field and
stops.  After the loop, a pending non-empty buffer is printed (UTF-8
decoding is modelled as always succeeding).  File writes are modelled
as always succeeding; error message texts are abbreviated. -/
def execStages (ctx : ExecContext) (aliases : List (String × String)) :
    Option (List Char) → List PipelineStage →
    Except String Unit × List Effect
  | prev, [] =>
    match prev with
    | some output =>
      if output.isEmpty then (Except.ok (), [])
      else (Except.ok (), [Effect.printOut (String.mk output)])
    | none => (Except.ok (), [])
  | prev, stage :: rest =>
    match (match aliasGet aliases stage.command with
      | some aliasValue => (splitWs aliasValue.data).map String.mk
      | none => [stage.command]) with
    | [] => (Except.error "panic: expanded_parts is empty", [])
    | command :: aliasArgs =>
      let args := aliasArgs ++ stage.args
      match stage.operator with
      | some PipelineOperator.Pipe =>
        if command = "grep" then
          if args.isEmpty then
            (Except.error "grep: no pattern specified", [])
          else
            let tempInput := "/tmp/aorta_input_" ++ toString ctx.pid
            let tempOutput := "/tmp/aorta_output_" ++ toString ctx.pid
            let grepArgs := args ++ [tempInput]
            if ctx.exec "grep" grepArgs then
              match ctx.readFile tempOutput with
              | some output =>
                let r := execStages ctx aliases (some output) rest
                (r.1, Effect.writeFile tempInput (prev.getD []) ::
                  Effect.execCall "grep" grepArgs ::
                  Effect.removeFile tempInput ::
                  Effect.removeFile tempOutput :: r.2)
              | none =>
                match ctx.cmdOutput "grep" grepArgs with
                | some out =>
                  let r := execStages ctx aliases (some out) rest
                  (r.1, Effect.writeFile tempInput (prev.getD []) ::
                    Effect.execCall "grep" grepArgs ::
                    Effect.spawnCapture "grep" grepArgs ::
                    Effect.removeFile tempInput ::
                    Effect.removeFile tempOutput :: r.2)
                | none =>
                  (Except.error "execution error",
                    [Effect.writeFile tempInput (prev.getD []),
                     Effect.execCall "grep" grepArgs,
                     Effect.spawnCapture "grep" grepArgs])
            else
              (Except.error "execution error",
                [Effect.writeFile tempInput (prev.getD []),
                 Effect.execCall "grep" grepArgs])
        else
          match ctx.cmdOutput command args with
          | some out =>
            let r := execStages ctx aliases (some out) rest
            (r.1, Effect.spawnCapture command args :: r.2)
          | none =>
            (Except.error "execution error",
              [Effect.spawnCapture command args])
      | some PipelineOperator.Redirect =>
        match rest with
        | next :: _ =>
          match prev with
          | some output =>
            (Except.ok (), [Effect.writeFile next.command output])
          | none =>
            match ctx.cmdOutput command args with
            | some out =>
              (Except.ok (), [Effect.spawnCapture command args,
                Effect.writeFile next.command out])
            | none =>
              (Except.error "execution error",
                [Effect.spawnCapture command args])
        | [] =>
          (Except.error "Redirect operator requires a file path", [])
      | some PipelineOperator.And | some PipelineOperator.Or
      | some PipelineOperator.Sequence | none =>
        if ctx.exec command args then
          let r := execStages ctx aliases none rest
          (r.1, Effect.execCall command args :: r.2)
        else
          (Except.error "execution error",
            [Effect.execCall command args])

/-- The `executor.execute` dispatches contained in an effect trace. -/
def dispatchesOf (effs : List Effect) : List (String × List String) :=
  effs.filterMap (fun e => match e with
    | Effect.execCall c a => some (c, a)
    | _ => none)

/-- Embedding of `Shell::execute_command` (`src/shell/executor.rs`,
lines 11-58): skip blank input, expand environment variables in the
whole line, parse the pipeline, and execute it with the shell's alias
table.  Timing, history recording and the current-directory refresh are
outside the model; `none` models divergence of the variable-expansion
loop. -/
def execute_command (fuel : Nat) (env : String → Option String)
    (aliases : List (String × String)) (ctx : ExecContext)
    (command : String) :
    Option (Except String Unit × List Effect) :=
  if (trimL command.data).isEmpty then some (Except.ok (), [])
  else
    match expandEnvVars fuel env command with
    | none => none
    | some expandedCommand =>
      match Pipeline.parse expandedCommand with
      | Except.error e => some (Except.error e, [])
      | Except.ok pipeline =>
        some (execStages ctx aliases none pipeline.stages)

/-- Embedding of the per-line handling of `SourceCommand::execute`
(`src/core/commands/source.rs`, lines 38-55): trim the line, skip blank
lines and lines starting with `#`, whitespace-split the rest and
dispatch first token + remaining tokens directly through
`executor.execute` — with no pipeline parsing and no alias or variable
expansion.  Returns the dispatch performed for the line, if any. -/
def sourceLineDispatch (line : String) : Option (String × List String) :=
  let trimmed := trimL line.data
  if trimmed.isEmpty then none
  else if trimmed.head? = some '#' then none
  else
    match splitWs trimmed with
    | [] => none
    | c :: args => some (String.mk c, args.map String.mk)

/-- C8: when the executor reaches a stage whose operator is `Redirect`
(and a next stage exists), the whole execution is independent of
everything after the next stage — no stage after the redirect target is
ever executed — and on success a write of the captured output (the
pending buffer if one exists) to the path in the next stage's `command`
field is performed. -/
theorem C8_redirect_terminates :
    ∀ (ctx : ExecContext) (aliases : List (String × String))
      (prev : Option (List Char)) (s next : PipelineStage)
      (rest rest2 : List PipelineStage),
      s.operator = some PipelineOperator.Redirect →
      (execStages ctx aliases prev (s :: next :: rest) =
        execStages ctx aliases prev (s :: next :: rest2)) ∧
      ((execStages ctx aliases prev (s :: next :: rest)).1 =
          Except.ok () →
        ∃ content, Effect.writeFile next.command content ∈
          (execStages ctx aliases prev (s :: next :: rest)).2 ∧
          ∀ o, prev = some o → content = o) := by
  intro ctx aliases prev s next rest rest2 hop
  cases hexp : (match aliasGet aliases s.command with
    | some aliasValue => (splitWs aliasValue.data).map String.mk
    | none => [s.command]) with
  | nil =>
    constructor
    · rw [execStages.eq_3 ctx aliases prev s (next :: rest), execStages.eq_3 ctx aliases prev s (next :: rest2), hexp]
    · rw [execStages.eq_3 ctx aliases prev s (next :: rest), hexp]
      intro habs
      exact Except.noConfusion habs
  | cons command aliasArgs =>
    cases prev with
    | some o =>
      constructor
      · rw [execStages.eq_3 ctx aliases _ s (next :: rest), execStages.eq_3 ctx aliases _ s (next :: rest2), hexp, hop]
      · rw [execStages.eq_3 ctx aliases _ s (next :: rest), hexp, hop]
        intro _
        exact ⟨o, List.mem_singleton.2 rfl,
          fun o2 ho2 => Option.some.inj ho2⟩
    | none =>
      cases hcmd : ctx.cmdOutput command (aliasArgs ++ s.args) with
      | some out =>
        constructor
        · rw [execStages.eq_3 ctx aliases _ s (next :: rest), execStages.eq_3 ctx aliases _ s (next :: rest2), hexp, hop]
        · rw [execStages.eq_3 ctx aliases _ s (next :: rest), hexp, hop]
          show (match ctx.cmdOutput command (aliasArgs ++ s.args) with
            | some out => (Except.ok (),
                [Effect.spawnCapture command (aliasArgs ++ s.args),
                 Effect.writeFile next.command out])
            | none => (Except.error "execution error",
                [Effect.spawnCapture command (aliasArgs ++ s.args)])).1 =
              Except.ok () →
            ∃ content, Effect.writeFile next.command content ∈
              (match ctx.cmdOutput command (aliasArgs ++ s.args) with
              | some out => (Except.ok (),
                  [Effect.spawnCapture command (aliasArgs ++ s.args),
                   Effect.writeFile next.command out])
              | none => (Except.error "execution error",
                  [Effect.spawnCapture command (aliasArgs ++ s.args)])).2 ∧
              ∀ o, (none : Option (List Char)) = some o → content = o
          rw [hcmd]
          intro _
          exact ⟨out, List.mem_cons_of_mem _ (List.mem_singleton.2 rfl),
            fun o2 ho2 => Option.noConfusion ho2⟩
      | none =>
        constructor
        · rw [execStages.eq_3 ctx aliases _ s (next :: rest), execStages.eq_3 ctx aliases _ s (next :: rest2), hexp, hop]
        · rw [execStages.eq_3 ctx aliases _ s (next :: rest), hexp, hop]
          show (match ctx.cmdOutput command (aliasArgs ++ s.args) with
            | some out => (Except.ok (),
                [Effect.spawnCapture command (aliasArgs ++ s.args),
                 Effect.writeFile next.command out])
            | none => (Except.error "execution error",
                [Effect.spawnCapture command (aliasArgs ++ s.args)])).1 =
              Except.ok () →
            ∃ content, Effect.writeFile next.command content ∈
              (match ctx.cmdOutput command (aliasArgs ++ s.args) with
              | some out => (Except.ok (),
                  [Effect.spawnCapture command (aliasArgs ++ s.args),
                   Effect.writeFile next.command out])
              | none => (Except.error "execution error",
                  [Effect.spawnCapture command (aliasArgs ++ s.args)])).2 ∧
              ∀ o, (none : Option (List Char)) = some o → content = o
          rw [hcmd]
          intro habs
          exact Except.noConfusion habs

/-- An oracle world in which every dispatch succeeds, every spawned
command captures empty output, and no file read succeeds. -/
def ctxAll : ExecContext :=
  ⟨fun _ _ => true, fun _ _ => some [], fun _ => none, 0⟩

/-- Witness for `C8_redirect_terminates` at a concrete input. -/
theorem C8_witness :
    (execStages ctxAll [] (some ['h', 'i'])
        (⟨"cmd", [], some PipelineOperator.Redirect⟩ ::
          ⟨"out.txt", [], none⟩ :: [⟨"never", [], none⟩]) =
      execStages ctxAll [] (some ['h', 'i'])
        (⟨"cmd", [], some PipelineOperator.Redirect⟩ ::
          ⟨"out.txt", [], none⟩ :: [])) ∧
    ((execStages ctxAll [] (some ['h', 'i'])
        (⟨"cmd", [], some PipelineOperator.Redirect⟩ ::
          ⟨"out.txt", [], none⟩ :: [⟨"never", [], none⟩])).1 =
        Except.ok () →
      ∃ content, Effect.writeFile
          (⟨"out.txt", [], none⟩ : PipelineStage).command content ∈
        (execStages ctxAll [] (some ['h', 'i'])
          (⟨"cmd", [], some PipelineOperator.Redirect⟩ ::
            ⟨"out.txt", [], none⟩ :: [⟨"never", [], none⟩])).2 ∧
        ∀ o, (some ['h', 'i'] : Option (List Char)) = some o →
          content = o) :=
  C8_redirect_terminates ctxAll [] (some ['h', 'i'])
    ⟨"cmd", [], some PipelineOperator.Redirect⟩ ⟨"out.txt", [], none⟩
    [⟨"never", [], none⟩] [] rfl

/-! ### Operator-free lines -/

/-- On an input containing none of the operator characters, the scanner
only accumulates: the result is a single stage built from the whole
buffer (or no stage at all when everything is whitespace). -/
theorem parseLoop_no_ops {s : List Char}
    (h : ∀ c ∈ s, c ≠ '|' ∧ c ≠ ';' ∧ c ≠ '>' ∧ c ≠ '&') :
    ∀ stages cur, parseLoop stages cur s =
      if (trimL (cur ++ s)).isEmpty then Except.ok stages
      else addStage stages (cur ++ s) none := by
  induction s with
  | nil =>
    intro stages cur
    rw [parseLoop.eq_1]
    simp
  | cons c s2 ih =>
    intro stages cur
    obtain ⟨h1, h2, h3, h4⟩ := h c (List.mem_cons_self _ _)
    rw [parseLoop.eq_7 stages cur c s2 (fun _ hc _ => h1 hc) h1
      (fun _ hc _ => h4 hc) h2 h3]
    rw [ih (fun d hd => h d (List.mem_cons_of_mem _ hd)) stages (cur ++ [c])]
    rw [show (cur ++ [c]) ++ s2 = cur ++ c :: s2 from by simp]

/-- Parsing an operator-free, non-blank line yields exactly one stage:
the first whitespace token as command, the rest as arguments, and no
operator. -/
theorem parse_no_ops (line : String)
    (h : ∀ c ∈ line.data, c ≠ '|' ∧ c ≠ ';' ∧ c ≠ '>' ∧ c ≠ '&')
    (hne : ¬(trimL line.data).isEmpty = true) :
    ∀ first rest, splitWs (trimL line.data) = first :: rest →
      Pipeline.parse line =
        Except.ok ⟨[⟨String.mk first, rest.map String.mk, none⟩]⟩ := by
  intro first rest hsp
  unfold Pipeline.parse
  rw [parseLoop_no_ops h [] []]
  rw [show ([] : List Char) ++ line.data = line.data from rfl]
  rw [if_neg hne]
  unfold addStage
  rw [if_neg hne, hsp]
  rfl

/-- A single stage with no operator and no matching alias dispatches
exactly once through the executor. -/
theorem execStages_single_simple (ctx : ExecContext)
    (aliases : List (String × String)) (command : String)
    (args : List String) (hget : aliasGet aliases command = none) :
    execStages ctx aliases none [⟨command, args, none⟩] =
      (if ctx.exec command args then Except.ok ()
       else Except.error "execution error",
       [Effect.execCall command args]) := by
  rw [execStages.eq_3]
  show (match (match aliasGet aliases command with
      | some aliasValue => (splitWs aliasValue.data).map String.mk
      | none => [command]) with
    | [] => (Except.error "panic: expanded_parts is empty", [])
    | c :: aliasArgs =>
      if ctx.exec c (aliasArgs ++ args) then
        ((execStages ctx aliases none []).1,
          Effect.execCall c (aliasArgs ++ args) ::
            (execStages ctx aliases none []).2)
      else (Except.error "execution error",
        [Effect.execCall c (aliasArgs ++ args)])) = _
  rw [hget]
  show (if ctx.exec command args = true then
      (Except.ok (), [Effect.execCall command args])
    else (Except.error "execution error", [Effect.execCall command args])) =
    (if ctx.exec command args = true then Except.ok ()
     else Except.error "execution error", [Effect.execCall command args])
  by_cases hex : ctx.exec command args = true
  · rw [if_pos hex, if_pos hex]
  · rw [if_neg hex, if_neg hex]

/-- C3, counterexample: the line `"echo a;echo b"` executed through the
`source` builtin is whitespace-split and dispatched once as
`echo ["a;echo", "b"]`, while typed interactively it is parsed into two
stages and dispatched as `echo ["a"]` then `echo ["b"]`: `source` does
not route lines through the pipeline parser. -/
theorem C3_counterexample :
    sourceLineDispatch "echo a;echo b" = some ("echo", ["a;echo", "b"]) ∧
    (execute_command 1 envUnset [] ctxAll "echo a;echo b").map
        (fun r => dispatchesOf r.2) =
      some [("echo", ["a"]), ("echo", ["b"])] ∧
    (some [("echo", ["a;echo", "b"])] :
        Option (List (String × List String))) ≠
      some [("echo", ["a"]), ("echo", ["b"])] := by
  decide

/-- C3 (amended): the `source` builtin skips blank lines and lines
starting with `#`, but executes every other line by whitespace-splitting
it into command and arguments and dispatching directly through the
command executor, with no pipeline parsing and no alias or environment
expansion.  This agrees with interactive execution exactly for lines
that contain no operator character and no `$`, and whose first token
matches no alias: both paths then perform the single dispatch
(first-token, remaining-tokens). -/
theorem C3_source_dispatch (line : String) (env : String → Option String)
    (aliases : List (String × String)) (ctx : ExecContext) (fuel : Nat)
    (hchars : ∀ c ∈ line.data,
      c ≠ '|' ∧ c ≠ ';' ∧ c ≠ '>' ∧ c ≠ '&' ∧ c ≠ '$')
    (hne : ¬(trimL line.data).isEmpty = true)
    (hhash : ¬(trimL line.data).head? = some '#') :
    ∀ first rest, splitWs (trimL line.data) = first :: rest →
      aliasGet aliases (String.mk first) = none →
      sourceLineDispatch line =
        some (String.mk first, rest.map String.mk) ∧
      (execute_command (fuel + 1) env aliases ctx line).map
          (fun r => dispatchesOf r.2) =
        some [(String.mk first, rest.map String.mk)] := by
  intro first rest hsp hget
  constructor
  · unfold sourceLineDispatch
    rw [if_neg hne, if_neg hhash, hsp]
  · unfold execute_command
    rw [if_neg hne]
    rw [expandEnvVars_no_dollar fuel env line
      (fun hd => (hchars '$' hd).2.2.2.2 rfl)]
    show Option.map (fun r => dispatchesOf r.2)
      (match Pipeline.parse line with
       | Except.error e => some (Except.error e, [])
       | Except.ok pipeline =>
         some (execStages ctx aliases none pipeline.stages)) =
      some [(String.mk first, rest.map String.mk)]
    rw [parse_no_ops line (fun c hc => ⟨(hchars c hc).1, (hchars c hc).2.1,
      (hchars c hc).2.2.1, (hchars c hc).2.2.2.1⟩) hne first rest hsp]
    show (some (execStages ctx aliases none
      [⟨String.mk first, rest.map String.mk, none⟩])).map
        (fun r => dispatchesOf r.2) =
      some [(String.mk first, rest.map String.mk)]
    rw [execStages_single_simple ctx aliases (String.mk first)
      (rest.map String.mk) hget]
    rfl

/-- Witness for `C3_source_dispatch` at a concrete input. -/
theorem C3_witness :
    sourceLineDispatch "cd /tmp" =
      some (String.mk ['c', 'd'], [['/', 't', 'm', 'p']].map String.mk) ∧
    (execute_command 1 envUnset [] ctxAll "cd /tmp").map
        (fun r => dispatchesOf r.2) =
      some [(String.mk ['c', 'd'], [['/', 't', 'm', 'p']].map String.mk)] :=
  C3_source_dispatch "cd /tmp" envUnset [] ctxAll 0 (by decide) (by decide)
    (by decide) ['c', 'd'] [['/', 't', 'm', 'p']] (by decide) rfl

end Aorta
